import Mathlib

/-!
Verification of the MWEB light-client synchronization core (`mweb.go`).

This file gives a shallow embedding of the Go source into Lean 4 and proves
properties of that embedding.  Machine integers (`uint64`, `uint32`, `uint16`)
are modelled as `Nat` with explicit `% 2 ^ w` at the operations where the Go
code can overflow or wrap.  Go panics (out-of-range indexing, nil
dereference) are modelled by `Option`, with `none` standing for a panic.
External cryptographic hashing (blake3) is modelled symbolically: a hash
value is a term of an inductive type recording exactly the data the Go code
feeds into the hash function.
-/

namespace Neutrino

/-- `bits.OnesCount64`, via fuel-bounded binary recursion (64 bits). -/
def popcountAux : Nat → Nat → Nat
  | 0, _ => 0
  | fuel + 1, n => if n = 0 then 0 else popcountAux fuel (n / 2) + n % 2

/-- Population count of a `uint64` value (`bits.OnesCount64`). -/
def popcount64 (x : Nat) : Nat := popcountAux 64 x

/-- Number of binary digits of `n`, with enough fuel for 64-bit values. -/
def bitlenAux : Nat → Nat → Nat
  | 0, _ => 0
  | fuel + 1, n => if n = 0 then 0 else bitlenAux fuel (n / 2) + 1

/-- `bits.LeadingZeros64` for a `uint64` value. -/
def leadingZeros64 (x : Nat) : Nat := 64 - bitlenAux 64 x

/-- `uint64` subtraction `a - b`, wrapping modulo `2 ^ 64`. -/
def sub64 (a b : Nat) : Nat := (a + (2 ^ 64 - b % 2 ^ 64)) % 2 ^ 64

/-- Go `uint64(1) << h`: shifts by 64 or more yield `0`. -/
def shl1_64 (h : Nat) : Nat := if 64 ≤ h then 0 else 2 ^ h

/-- `leafIdx.nodeIdx`: `nodeIdx(2*i) - nodeIdx(bits.OnesCount64(uint64(i)))`,
in `uint64` arithmetic. -/
def leafIdx.nodeIdx (i : Nat) : Nat := sub64 (2 * i % 2 ^ 64) (popcount64 i)

/-- The iteration of `nodeIdx.height`: peak sizes `2^k - 1` for `k`
descending; `peakSize >>= 1` maps `2^(k+1) - 1` to `2^k - 1` and the loop
stops when the peak size reaches `0`. -/
def heightLoop : Nat → Nat → Nat
  | 0, height => height
  | k + 1, height =>
      heightLoop k (if 2 ^ (k + 1) - 1 ≤ height then height - (2 ^ (k + 1) - 1) else height)

/-- `nodeIdx.height`: the residue after subtracting descending peak sizes,
starting from `peakSize = 2^h - 1` with `h = 64 - bits.LeadingZeros64(i)`. -/
def nodeIdx.height (i : Nat) : Nat := heightLoop (64 - leadingZeros64 i) i

/-- The iteration of `nodeIdx.leafIdx`: whenever `peakSize ≤ numLeft`, add
`(peakSize+1)/2` leaves and subtract the peak. -/
def leafLoop : Nat → Nat → Nat → Nat
  | 0, _, acc => acc
  | k + 1, numLeft, acc =>
      if 2 ^ (k + 1) - 1 ≤ numLeft then
        leafLoop k (numLeft - (2 ^ (k + 1) - 1)) (acc + 2 ^ k)
      else
        leafLoop k numLeft acc

/-- `nodeIdx.leafIdx`: number of leaves strictly before node `i`. -/
def nodeIdx.leafIdx (i : Nat) : Nat := leafLoop (64 - leadingZeros64 i) i 0

/-- The iteration of `calcPeaks`: whenever `peakSize ≤ nodes`, the last node
of that peak is at `sumPrevPeaks + peakSize - 1`. -/
def calcPeaksLoop : Nat → Nat → Nat → List Nat
  | 0, _, _ => []
  | k + 1, nodes, sumPrev =>
      if 2 ^ (k + 1) - 1 ≤ nodes then
        (sumPrev + (2 ^ (k + 1) - 1) - 1) ::
          calcPeaksLoop k (nodes - (2 ^ (k + 1) - 1)) (sumPrev + (2 ^ (k + 1) - 1))
      else
        calcPeaksLoop k nodes sumPrev

/-- `calcPeaks`: the node indices of the MMR peaks for `nodes` total nodes. -/
def calcPeaks (nodes : Nat) : List Nat := calcPeaksLoop (64 - leadingZeros64 nodes) nodes 0

/-! ### Arithmetic lemmas for the leaf/node index maps -/

theorem popcountAux_le (f n : Nat) : popcountAux f n ≤ n := by
  induction f generalizing n with
  | zero => simp [popcountAux]
  | succ f ih =>
      by_cases h : n = 0
      · simp [popcountAux, h]
      · simp only [popcountAux, h, if_false]
        have h1 := ih (n / 2)
        omega

theorem popcount64_le (n : Nat) : popcount64 n ≤ n := popcountAux_le 64 n

theorem popcountAux_zero (f : Nat) : popcountAux f 0 = 0 := by
  cases f <;> simp [popcountAux]

theorem popcountAux_pow_add (k : Nat) :
    ∀ f r, r < 2 ^ k → k < f → popcountAux f (2 ^ k + r) = popcountAux f r + 1 := by
  induction k with
  | zero =>
      intro f r hr hf
      interval_cases r
      match f, hf with
      | f + 1, _ => simp [popcountAux, popcountAux_zero]
  | succ k ih =>
      intro f r hr hf
      match f, hf with
      | f + 1, hf =>
        have hk : k < f := by omega
        have hne : 2 ^ (k + 1) + r ≠ 0 := by positivity
        have hdiv : (2 ^ (k + 1) + r) / 2 = 2 ^ k + r / 2 := by
          rw [pow_succ]
          omega
        have hmod : (2 ^ (k + 1) + r) % 2 = r % 2 := by
          rw [pow_succ]
          omega
        simp only [popcountAux, hne, if_false, hdiv, hmod]
        rcases Nat.eq_zero_or_pos r with h0 | hpos
        · subst h0
          rw [ih f 0 (Nat.pos_pow_of_pos k (by norm_num)) hk]
          simp [popcountAux_zero]
        · have hr2 : r / 2 < 2 ^ k := by
            have : r < 2 * 2 ^ k := by rw [← pow_succ']; exact hr
            omega
          have hrne : r ≠ 0 := by omega
          rw [ih f (r / 2) hr2 hk]
          simp only [popcountAux, hrne, if_false]
          omega

theorem bitlenAux_le (f n : Nat) : bitlenAux f n ≤ f := by
  induction f generalizing n with
  | zero => simp [bitlenAux]
  | succ f ih =>
      by_cases h : n = 0
      · simp [bitlenAux, h]
      · simp only [bitlenAux, h, if_false]
        exact Nat.succ_le_succ (ih _)

theorem lt_two_pow_bitlenAux (f : Nat) :
    ∀ n, n < 2 ^ f → n < 2 ^ bitlenAux f n := by
  induction f with
  | zero =>
      intro n hn
      interval_cases n
      simp [bitlenAux]
  | succ f ih =>
      intro n hn
      by_cases h : n = 0
      · simp [bitlenAux, h]
      · simp only [bitlenAux, h, if_false]
        have hdiv : n / 2 < 2 ^ f := by
          rw [pow_succ] at hn
          omega
        have := ih (n / 2) hdiv
        rw [pow_succ]
        omega

theorem bitlenAux_mono (f : Nat) : ∀ m n, m ≤ n → bitlenAux f m ≤ bitlenAux f n := by
  induction f with
  | zero => intro m n _; simp [bitlenAux]
  | succ f ih =>
      intro m n hmn
      by_cases hm : m = 0
      · simp [bitlenAux, hm]
      · have hn : n ≠ 0 := by omega
        simp only [bitlenAux, hm, hn, if_false]
        exact Nat.succ_le_succ (ih _ _ (Nat.div_le_div_right hmn))

/-- Key loop invariant: starting the `leafIdx` iteration at level `k ≤ 64`
on the (non-wrapping) node index `2*i - popcount(i)` of a leaf `i < 2^k`
accumulates exactly `i` leaves. -/
theorem leafLoop_nodeIdx (k : Nat) (hk : k ≤ 64) :
    ∀ i acc, i < 2 ^ k → leafLoop k (2 * i - popcount64 i) acc = acc + i := by
  induction k with
  | zero =>
      intro i acc hi
      interval_cases i
      simp [leafLoop, popcount64, popcountAux]
  | succ k ih =>
      intro i acc hi
      have hk' : k ≤ 64 := by omega
      have hP : 1 ≤ 2 ^ k := Nat.one_le_two_pow
      by_cases hcase : 2 ^ k ≤ i
      · -- i = 2^k + r with r < 2^k
        set r := i - 2 ^ k with hr
        have hrlt : r < 2 ^ k := by
          rw [pow_succ] at hi
          omega
        have hi' : i = 2 ^ k + r := by omega
        have hpc : popcount64 i = popcount64 r + 1 := by
          rw [hi']
          exact popcountAux_pow_add k 64 r hrlt (by omega)
        have hpcr : popcount64 r ≤ r := popcount64_le r
        have hcond : 2 ^ (k + 1) - 1 ≤ 2 * i - popcount64 i := by
          rw [hpc, hi', pow_succ]
          omega
        have hsub : 2 * i - popcount64 i - (2 ^ (k + 1) - 1) = 2 * r - popcount64 r := by
          rw [hpc, hi', pow_succ]
          omega
        simp only [leafLoop, hcond, if_true, hsub]
        rw [ih hk' r (acc + 2 ^ k) hrlt]
        omega
      · -- i < 2^k: the peak is skipped
        have hcond : ¬ (2 ^ (k + 1) - 1 ≤ 2 * i - popcount64 i) := by
          rw [pow_succ]
          omega
        simp only [leafLoop, hcond, if_false]
        exact ih hk' i acc (by omega)

/-- Key loop invariant for `nodeIdx.height`: the residue of the node index
of a leaf is `0`. -/
theorem heightLoop_nodeIdx (k : Nat) (hk : k ≤ 64) :
    ∀ i, i < 2 ^ k → heightLoop k (2 * i - popcount64 i) = 0 := by
  induction k with
  | zero =>
      intro i hi
      interval_cases i
      simp [heightLoop, popcount64, popcountAux]
  | succ k ih =>
      intro i hi
      have hk' : k ≤ 64 := by omega
      have hP : 1 ≤ 2 ^ k := Nat.one_le_two_pow
      by_cases hcase : 2 ^ k ≤ i
      · set r := i - 2 ^ k with hr
        have hrlt : r < 2 ^ k := by
          rw [pow_succ] at hi
          omega
        have hi' : i = 2 ^ k + r := by omega
        have hpc : popcount64 i = popcount64 r + 1 := by
          rw [hi']
          exact popcountAux_pow_add k 64 r hrlt (by omega)
        have hpcr : popcount64 r ≤ r := popcount64_le r
        have hcond : 2 ^ (k + 1) - 1 ≤ 2 * i - popcount64 i := by
          rw [hpc, hi', pow_succ]
          omega
        have hsub : 2 * i - popcount64 i - (2 ^ (k + 1) - 1) = 2 * r - popcount64 r := by
          rw [hpc, hi', pow_succ]
          omega
        simp only [heightLoop, hcond, if_true, hsub]
        exact ih hk' r hrlt
      · have hcond : ¬ (2 ^ (k + 1) - 1 ≤ 2 * i - popcount64 i) := by
          rw [pow_succ]
          omega
        simp only [heightLoop, hcond, if_false]
        exact ih hk' i (by omega)

/-- For `i < 2^63` the `uint64` computation `2*i - popcount(i)` does not
wrap, so `leafIdx.nodeIdx` agrees with the exact value. -/
theorem leafIdx_nodeIdx_eq (i : Nat) (hi : i < 2 ^ 63) :
    leafIdx.nodeIdx i = 2 * i - popcount64 i := by
  have hpc : popcount64 i ≤ i := popcount64_le i
  have hM : (2 : Nat) ^ 64 = 2 ^ 63 * 2 := by norm_num
  unfold leafIdx.nodeIdx sub64
  have h2i : 2 * i % 2 ^ 64 = 2 * i := Nat.mod_eq_of_lt (by omega)
  have hpcm : popcount64 i % 2 ^ 64 = popcount64 i := Nat.mod_eq_of_lt (by omega)
  rw [h2i, hpcm]
  have : 2 * i + (2 ^ 64 - popcount64 i) = 2 ^ 64 + (2 * i - popcount64 i) := by omega
  rw [this, Nat.add_mod_left]
  exact Nat.mod_eq_of_lt (by omega)

theorem bitlen_start_eq (n : Nat) :
    64 - leadingZeros64 n = bitlenAux 64 n := by
  unfold leadingZeros64
  have := bitlenAux_le 64 n
  omega

/-- **C9** (amended: the round-trip holds for leaf indices below `2^63`;
for larger 64-bit indices the computation `2*i - popcount(i)` wraps and
the round-trip fails, see the counterexample). For every `i < 2^63`,
`leafIdx(i).nodeIdx().leafIdx() == i` and `leafIdx(i).nodeIdx().height() == 0`. -/
theorem c9_leaf_node_roundtrip (i : Nat) (hi : i < 2 ^ 63) :
    nodeIdx.leafIdx (leafIdx.nodeIdx i) = i ∧ nodeIdx.height (leafIdx.nodeIdx i) = 0 := by
  have hpc : popcount64 i ≤ i := popcount64_le i
  have hnode : leafIdx.nodeIdx i = 2 * i - popcount64 i := leafIdx_nodeIdx_eq i hi
  set n := 2 * i - popcount64 i with hn
  have hn64 : n < 2 ^ 64 := by
    have : (2 : Nat) ^ 64 = 2 ^ 63 * 2 := by norm_num
    omega
  -- i does not exceed n, hence fits under n's bit length
  have hin : i ≤ n := by omega
  have hibit : i < 2 ^ bitlenAux 64 n :=
    lt_of_lt_of_le (lt_two_pow_bitlenAux 64 i (by omega))
      (Nat.pow_le_pow_right (by norm_num) (bitlenAux_mono 64 i n hin))
  have hk : bitlenAux 64 n ≤ 64 := bitlenAux_le 64 n
  constructor
  · rw [hnode]
    unfold nodeIdx.leafIdx
    rw [bitlen_start_eq n]
    have := leafLoop_nodeIdx (bitlenAux 64 n) hk i 0 hibit
    simpa using this
  · rw [hnode]
    unfold nodeIdx.height
    rw [bitlen_start_eq n]
    exact heightLoop_nodeIdx (bitlenAux 64 n) hk i hibit

/-- Witness for C9: the round-trip at the concrete leaf index `5`. -/
theorem c9_leaf_node_roundtrip_witness :
    5 < 2 ^ 63 ∧
      (nodeIdx.leafIdx (leafIdx.nodeIdx 5) = 5 ∧ nodeIdx.height (leafIdx.nodeIdx 5) = 0) :=
  ⟨by norm_num, c9_leaf_node_roundtrip 5 (by norm_num)⟩

/-- Counterexample to C9 as stated: for the 64-bit leaf index `2^63 + 1`
the computation `2*i - popcount(i)` wraps around modulo `2^64` to node `0`,
which maps back to leaf `0`, not to `i`. -/
theorem c9_counterexample :
    nodeIdx.leafIdx (leafIdx.nodeIdx (2 ^ 63 + 1)) ≠ 2 ^ 63 + 1 := by decide

/-! ### Leafset bitmaps

A `leafset` is a byte slice `[]byte`; bit `i` is `bytes[i/8] & (0x80 >> (i%8))`
(MSB-first within each byte).  We model it as a `List Nat` of byte values. -/

/-- `leafset.contains`: false for out-of-range indices, otherwise the
MSB-first bit test. -/
def leafset.contains (l : List Nat) (i : Nat) : Bool :=
  if l.length ≤ i / 8 then false
  else decide (0 < Nat.land (l.getD (i / 8) 0) (Nat.shiftRight 0x80 (i % 8)))

/-- The scan of `leafset.nextUnspent`, fuel-bounded. The Go loop increments
`i` until the index is set or falls outside the bitmap, so it performs at
most `8 * len(l)` iterations from any starting point; the fuel used by
`leafset.nextUnspent` below therefore never runs out. -/
def nextUnspentAux (l : List Nat) : Nat → Nat → Nat
  | 0, i => i + 1
  | fuel + 1, i =>
      if leafset.contains l (i + 1) ∨ l.length ≤ (i + 1) / 8 then i + 1
      else nextUnspentAux l fuel (i + 1)

/-- `leafset.nextUnspent`: the first index after `i` that is set, or the
first out-of-range index. -/
def leafset.nextUnspent (l : List Nat) (i : Nat) : Nat :=
  nextUnspentAux l (8 * l.length + 8) i

theorem nextUnspentAux_gt (l : List Nat) (fuel : Nat) :
    ∀ i, i < nextUnspentAux l fuel i := by
  induction fuel with
  | zero => intro i; simp [nextUnspentAux]
  | succ fuel ih =>
      intro i
      by_cases h : leafset.contains l (i + 1) ∨ l.length ≤ (i + 1) / 8
      · simp [nextUnspentAux, h]
      · simp only [nextUnspentAux, h, if_false]
        exact Nat.lt_trans (Nat.lt_succ_self i) (ih (i + 1))

/-- `nextUnspent` strictly increases, hence verified batches are strictly
ascending by leaf index. -/
theorem nextUnspent_gt (l : List Nat) (i : Nat) : i < leafset.nextUnspent l i :=
  nextUnspentAux_gt l _ i

/-! ### Symbolic hashes

All node digests in the Go code are blake3 outputs; we model them as a free
inductive datatype recording exactly the bytes fed into the hasher:
`leafH n d` is `blake3(LE8(n) || varbytes(d))` (`nodeIdx.hash`) and
`parentH n l r` is `blake3(LE8(n) || l || r)` (`nodeIdx.parentHash`).
`raw bs` is an arbitrary 32-byte value supplied on the wire. -/

inductive Hash : Type
  | raw (bytes : List Nat)
  | leafH (node : Nat) (outputId : Hash)
  | parentH (node : Nat) (left right : Hash)
  deriving DecidableEq, Repr

/-- `chainhash.Hash{}`: the all-zero 32-byte hash. -/
def zeroHash : Hash := Hash.raw (List.replicate 32 0)

/-! ### Wire messages used by the UTXO verifier -/

/-- A single UTXO record; only `LeafIndex` and `OutputId` take part in
verification.  The wire layer always decodes a non-nil `OutputId`. -/
structure Utxo where
  leafIndex : Nat
  outputId : Hash
  deriving DecidableEq, Repr

/-- `wire.MsgMwebUtxos`. -/
structure MsgMwebUtxos where
  blockHash : Hash
  startIndex : Nat
  outputFormat : Nat
  utxos : List Utxo
  proofHashes : List Hash
  deriving DecidableEq, Repr

/-- The part of `wire.MwebHeader` consulted by the verifier. -/
structure MwebHeader where
  outputRoot : Hash
  outputMMRSize : Nat
  deriving DecidableEq, Repr

/-! ### The UTXO proof verifier (`verifyMwebUtxos`) -/

/-- The mutable cursor state of `verifyMwebUtxosVars`: `leavesUsed`,
`hashesUsed` and the `isProofHash` set (a Go map from node index to bool;
we keep the list of marked node indices). -/
structure VState where
  leavesUsed : Nat
  hashesUsed : Nat
  isProofHash : List Nat
  deriving DecidableEq, Repr

/-- The immutable part of `verifyMwebUtxosVars`. -/
structure VCtx where
  mwebUtxos : MsgMwebUtxos
  leafset : List Nat
  firstLeafIdx : Nat
  lastLeafIdx : Nat
  deriving DecidableEq, Repr

/-- `verifyMwebUtxosVars.nextLeaf`; `none` models the zero return
(`hash == nil`) when the leaf cursor is exhausted. -/
def nextLeaf (c : VCtx) (s : VState) : Option (Nat × Hash) × VState :=
  match c.mwebUtxos.utxos.get? s.leavesUsed with
  | none => (none, s)
  | some u => (some (u.leafIndex, u.outputId), { s with leavesUsed := s.leavesUsed + 1 })

/-- `verifyMwebUtxosVars.nextHash`; `none` models the nil return when the
proof-hash cursor is exhausted (in that case nothing is marked). -/
def nextHash (c : VCtx) (node : Nat) (s : VState) : Option Hash × VState :=
  match c.mwebUtxos.proofHashes.get? s.hashesUsed with
  | none => (none, s)
  | some h =>
      (some h, { s with hashesUsed := s.hashesUsed + 1, isProofHash := node :: s.isProofHash })

/-- `verifyMwebUtxosVars.calcNodeHash`, recursive on the node height. -/
def calcNodeHash (c : VCtx) (node : Nat) (height : Nat) (s : VState) :
    Option Hash × VState :=
  if node < leafIdx.nodeIdx c.firstLeafIdx ∨ s.isProofHash.contains node then
    nextHash c node s
  else
    match height with
    | 0 =>
        let leaf := nodeIdx.leafIdx node
        if ¬ leafset.contains c.leafset leaf then (none, s)
        else
          match nextLeaf c s with
          | (none, s1) => (none, s1)
          | (some (leaf2, outputId), s1) =>
              if leaf ≠ leaf2 then (none, s1)
              else (some (Hash.leafH node outputId), s1)
    | h + 1 =>
        let leftIdx := sub64 node (shl1_64 (h + 1))
        let rightIdx := sub64 node 1
        let (left, s1) := calcNodeHash c leftIdx h s
        let (right, s2) :=
          if leafIdx.nodeIdx c.lastLeafIdx ≤ leftIdx then nextHash c rightIdx s1
          else calcNodeHash c rightIdx h s1
        match left, right with
        | none, none => (none, s2)
        | none, some r =>
            match nextHash c leftIdx s2 with
            | (none, s3) => (none, s3)
            | (some l, s3) => (some (Hash.parentH node l r), s3)
        | some l, none =>
            match nextHash c rightIdx s2 with
            | (none, s3) => (none, s3)
            | (some r, s3) => (some (Hash.parentH node l r), s3)
        | some l, some r => (some (Hash.parentH node l r), s2)

/-- The `peakHash == nil` rescue at the top of the peak loop body:
compute the peak hash, falling back to one proof hash; `none` is
`return false`. -/
def peakHashOr (c : VCtx) (p : Nat) (s : VState) : Option (Hash × VState) :=
  match calcNodeHash c p (nodeIdx.height p) s with
  | (some h, s1) => some (h, s1)
  | (none, s1) =>
      match nextHash c p s1 with
      | (none, _) => none
      | (some h, s2) => some (h, s2)

/-- One pass of the peak walk (the body of the `for _, peakNodeIdx := range
peaks` loop).  `lastPeak` is `peaks[len(peaks)-1]` (only consulted when the
loop body runs, hence when `peaks` is non-empty); `nextNode` is
`leafIdx(OutputMMRSize).nodeIdx()`.  Returns `none` for `return false`,
otherwise the accumulated `peakHashes` and the final cursor state. -/
def peaksLoop (c : VCtx) (lastPeak nextNode : Nat) :
    List Nat → VState → List Hash → Option (List Hash × VState)
  | [], s, acc => some (acc, s)
  | p :: rest, s, acc =>
      match peakHashOr c p s with
      | none => none
      | some (h, s2) =>
          if leafIdx.nodeIdx c.lastLeafIdx ≤ p then
            if p ≠ lastPeak then
              match nextHash c nextNode s2 with
              | (none, _) => none
              | (some bagged, s3) => some (acc ++ [h] ++ [bagged], s3)
            else some (acc ++ [h], s2)
          else peaksLoop c lastPeak nextNode rest s2 (acc ++ [h])

/-- The leaf-range walk (`for i := 0; ; i++` over `mwebUtxos.Utxos`),
consuming the list of utxos.  The Go loop indexes `Utxos[i]`; indexing past
the end (only possible when the walk is entered with an empty slice) is a
panic, modelled by the outer `none`.  `some none` is `return false`,
`some (some last)` is normal exit with the final `lastLeafIdx`. -/
def walkLoop (ls : List Nat) : List Utxo → Nat → Option (Option Nat)
  | rest, last =>
      if ¬ leafset.contains ls last then some none
      else
        match rest with
        | [] => none
        | u :: rest' =>
            if u.leafIndex ≠ last then some none
            else if rest' = [] then some (some last)
            else walkLoop ls rest' (leafset.nextUnspent ls last)

/-- `verifyMwebUtxos`.  The outer `Option` models Go panics (`none` means
the function would crash); `some b` is a normal boolean return.  The
two-iteration `for i := 0; i < 2; i++` loop is unrolled: both passes reset
the cursors, the second pass keeps the `isProofHash` set of the first, and
the cursor-count check runs after each pass exactly as in the source. -/
def verifyMwebUtxos (hdr : MwebHeader) (ls : List Nat) (m : MsgMwebUtxos) : Option Bool :=
  if m.startIndex = 0 ∧ m.utxos = [] ∧ m.proofHashes = [] ∧
      hdr.outputRoot = zeroHash ∧ hdr.outputMMRSize = 0 then
    some true
  else if m.utxos = [] ∨ hdr.outputMMRSize = 0 then
    some false
  else
    match walkLoop ls m.utxos m.startIndex with
    | none => none
    | some none => some false
    | some (some last) =>
        let c : VCtx := ⟨m, ls, m.startIndex, last⟩
        let nextNode := leafIdx.nodeIdx hdr.outputMMRSize
        let peaks := calcPeaks nextNode
        let lastPeak := (peaks.getLast?).getD 0
        match peaksLoop c lastPeak nextNode peaks ⟨0, 0, []⟩ [] with
        | none => some false
        | some (_, s1) =>
            if s1.leavesUsed ≠ m.utxos.length ∨ s1.hashesUsed ≠ m.proofHashes.length then
              some false
            else
              match peaksLoop c lastPeak nextNode peaks ⟨0, 0, s1.isProofHash⟩ [] with
              | none => some false
              | some (peakHashes, s2) =>
                  if s2.leavesUsed ≠ m.utxos.length ∨
                      s2.hashesUsed ≠ m.proofHashes.length then
                    some false
                  else
                    match peakHashes.getLast? with
                    | none => none
                    | some lastH =>
                        some (decide
                          (peakHashes.dropLast.foldr
                            (fun h acc => Hash.parentH nextNode h acc) lastH =
                              hdr.outputRoot))

/-! ### C8: the empty-MMR short circuit -/

/-- **C8**: `verifyMwebUtxos` accepts an empty batch exactly in the
empty-MMR case (start index 0, no utxos, no proof hashes, all-zero output
root, MMR size 0), and rejects whenever the batch is empty or the MMR size
is zero in any other combination of these conditions. -/
theorem c8_empty_mmr (hdr : MwebHeader) (ls : List Nat) (m : MsgMwebUtxos) :
    (m.startIndex = 0 ∧ m.utxos = [] ∧ m.proofHashes = [] ∧
        hdr.outputRoot = zeroHash ∧ hdr.outputMMRSize = 0 →
      verifyMwebUtxos hdr ls m = some true) ∧
    ((m.utxos = [] ∨ hdr.outputMMRSize = 0) →
      ¬ (m.startIndex = 0 ∧ m.utxos = [] ∧ m.proofHashes = [] ∧
          hdr.outputRoot = zeroHash ∧ hdr.outputMMRSize = 0) →
      verifyMwebUtxos hdr ls m = some false) := by
  constructor
  · intro h
    unfold verifyMwebUtxos
    rw [if_pos h]
  · intro h1 h2
    unfold verifyMwebUtxos
    rw [if_neg h2, if_pos h1]

/-- Witness for C8: a non-empty start index with an empty batch is
rejected. -/
theorem c8_empty_mmr_witness :
    (([] : List Utxo) = [] ∨ (0 : Nat) = 0) ∧
      ¬ ((1 : Nat) = 0 ∧ ([] : List Utxo) = [] ∧ ([] : List Hash) = [] ∧
          zeroHash = zeroHash ∧ (0 : Nat) = 0) ∧
      verifyMwebUtxos ⟨zeroHash, 0⟩ [] ⟨zeroHash, 1, 0, [], []⟩ = some false :=
  ⟨by decide, by decide,
    (c8_empty_mmr ⟨zeroHash, 0⟩ [] ⟨zeroHash, 1, 0, [], []⟩).2 (by decide) (by decide)⟩

/-! ### C10: totality of `verifyMwebUtxos` -/

theorem walkLoop_ne_none (ls : List Nat) :
    ∀ (rest : List Utxo) (last : Nat), rest ≠ [] → walkLoop ls rest last ≠ none := by
  intro rest
  induction rest with
  | nil => intro last h; exact absurd rfl h
  | cons u rest' ih =>
      intro last _
      unfold walkLoop
      by_cases hc : leafset.contains ls last
      · simp only [hc, not_true, if_false, if_neg]
        by_cases hl : u.leafIndex ≠ last
        · simp [hl]
        · simp only [hl, if_false]
          by_cases hr : rest' = []
          · simp [hr]
          · simp only [hr, if_false]
            exact ih _ hr
      · simp [hc]

/-- Success of `peaksLoop` extends the accumulator. -/
theorem peaksLoop_extend (c : VCtx) (lastPeak nextNode : Nat) :
    ∀ (peaks : List Nat) (s : VState) (acc acc' : List Hash) (s' : VState),
      peaksLoop c lastPeak nextNode peaks s acc = some (acc', s') →
      ∃ t, acc' = acc ++ t := by
  intro peaks
  induction peaks with
  | nil =>
      intro s acc acc' s' h
      simp only [peaksLoop, Option.some_inj, Prod.mk.injEq] at h
      exact ⟨[], by simp [← h.1]⟩
  | cons p rest ih =>
      intro s acc acc' s' h
      rw [peaksLoop] at h
      cases hstep : peakHashOr c p s with
      | none => rw [hstep] at h; exact absurd h (by simp)
      | some pr =>
          obtain ⟨hh, s2⟩ := pr
          rw [hstep] at h
          simp only at h
          by_cases hle : leafIdx.nodeIdx c.lastLeafIdx ≤ p
          · rw [if_pos hle] at h
            by_cases hlp : p ≠ lastPeak
            · rw [if_pos hlp] at h
              cases hnx : nextHash c nextNode s2 with
              | mk ho s3 =>
                  rw [hnx] at h
                  cases ho with
                  | none => exact absurd h (by simp)
                  | some bagged =>
                      simp only [Option.some_inj, Prod.mk.injEq] at h
                      exact ⟨[hh, bagged], by simp [← h.1]⟩
            · rw [if_neg hlp] at h
              simp only [Option.some_inj, Prod.mk.injEq] at h
              exact ⟨[hh], by simp [← h.1]⟩
          · rw [if_neg hle] at h
            obtain ⟨t, ht⟩ := ih _ _ _ _ h
            exact ⟨hh :: t, by simp [ht]⟩

/-- A successful pass over a non-empty peak list yields a non-empty
`peakHashes`. -/
theorem peaksLoop_cons_ne_nil (c : VCtx) (lastPeak nextNode : Nat)
    (p : Nat) (rest : List Nat) (s : VState) (acc' : List Hash) (s' : VState)
    (h : peaksLoop c lastPeak nextNode (p :: rest) s [] = some (acc', s')) :
    acc' ≠ [] := by
  rw [peaksLoop] at h
  cases hstep : peakHashOr c p s with
  | none => rw [hstep] at h; exact absurd h (by simp)
  | some pr =>
      obtain ⟨hh, s2⟩ := pr
      rw [hstep] at h
      simp only at h
      by_cases hle : leafIdx.nodeIdx c.lastLeafIdx ≤ p
      · rw [if_pos hle] at h
        by_cases hlp : p ≠ lastPeak
        · rw [if_pos hlp] at h
          cases hnx : nextHash c nextNode s2 with
          | mk ho s3 =>
              rw [hnx] at h
              cases ho with
              | none => exact absurd h (by simp)
              | some bagged =>
                  simp only [Option.some_inj, Prod.mk.injEq] at h
                  simp [← h.1]
        · rw [if_neg hlp] at h
          simp only [Option.some_inj, Prod.mk.injEq] at h
          simp [← h.1]
      · rw [if_neg hle] at h
        obtain ⟨t, ht⟩ := peaksLoop_extend c lastPeak nextNode rest _ _ _ _ h
        simp [ht]

/-- **C10**: `verifyMwebUtxos` is total — on every input (including
adversarial ones) it returns a boolean and never reaches a Go panic:
the walk indexes `m.Utxos` in bounds, and when the final bagging fold is
reached the `peakHashes` list is non-empty. -/
theorem c10_verifyMwebUtxos_total (hdr : MwebHeader) (ls : List Nat) (m : MsgMwebUtxos) :
    (verifyMwebUtxos hdr ls m).isSome = true := by
  unfold verifyMwebUtxos
  split
  · rfl
  split
  · rfl
  next h1 h2 =>
    have hne : m.utxos ≠ [] := fun h => h2 (Or.inl h)
    cases hw : walkLoop ls m.utxos m.startIndex with
    | none => exact absurd hw (walkLoop_ne_none ls m.utxos m.startIndex hne)
    | some o =>
        cases o with
        | none => simp [hw]
        | some last =>
            simp only [hw]
            cases hp1 : peaksLoop ⟨m, ls, m.startIndex, last⟩
                (((calcPeaks (leafIdx.nodeIdx hdr.outputMMRSize)).getLast?).getD 0)
                (leafIdx.nodeIdx hdr.outputMMRSize)
                (calcPeaks (leafIdx.nodeIdx hdr.outputMMRSize)) ⟨0, 0, []⟩ [] with
            | none => simp [hp1]
            | some s1p =>
                obtain ⟨ph1, s1⟩ := s1p
                simp only [hp1]
                split
                · rfl
                next hcount1 =>
                  cases hp2 : peaksLoop ⟨m, ls, m.startIndex, last⟩
                      (((calcPeaks (leafIdx.nodeIdx hdr.outputMMRSize)).getLast?).getD 0)
                      (leafIdx.nodeIdx hdr.outputMMRSize)
                      (calcPeaks (leafIdx.nodeIdx hdr.outputMMRSize))
                      ⟨0, 0, s1.isProofHash⟩ [] with
                  | none => simp [hp2]
                  | some s2p =>
                      obtain ⟨ph2, s2⟩ := s2p
                      simp only [hp2]
                      split
                      · rfl
                      next hcount2 =>
                        cases hlast : ph2.getLast? with
                        | some lastH => simp [hlast]
                        | none =>
                            exfalso
                            have hnil : ph2 = [] := by
                              cases hl : ph2 with
                              | nil => rfl
                              | cons a t => rw [hl] at hlast; simp [List.getLast?] at hlast
                            cases hpk : calcPeaks (leafIdx.nodeIdx hdr.outputMMRSize) with
                            | nil =>
                                rw [hpk] at hp2
                                simp only [peaksLoop, Option.some_inj, Prod.mk.injEq] at hp2
                                have hlu : s2.leavesUsed = 0 := by
                                  rw [← hp2.2]
                                push_neg at hcount2
                                have : m.utxos.length = 0 := by
                                  rw [← hcount2.1, hlu]
                                exact hne (List.length_eq_zero.mp this)
                            | cons p rest =>
                                rw [hpk] at hp2
                                exact peaksLoop_cons_ne_nil _ _ _ p rest _ _ _ hp2 hnil

/-! ### C2: shape of a verified batch -/

/-- What a successful leaf-range walk guarantees about the utxo list:
every leaf index is set in the leafset, the first one equals the walk's
starting index, and each successive one is `nextUnspent` of the previous. -/
theorem walkLoop_spec (ls : List Nat) :
    ∀ (rest : List Utxo) (last fin : Nat),
      walkLoop ls rest last = some (some fin) →
      (∀ u ∈ rest, leafset.contains ls u.leafIndex = true) ∧
      rest.head?.map Utxo.leafIndex = some last ∧
      List.Chain' (fun a b => b.leafIndex = leafset.nextUnspent ls a.leafIndex) rest := by
  intro rest
  induction rest with
  | nil =>
      intro last fin h
      rw [walkLoop] at h
      by_cases hc : leafset.contains ls last <;> simp [hc] at h
  | cons u rest' ih =>
      intro last fin h
      rw [walkLoop] at h
      by_cases hc : leafset.contains ls last
      · simp only [hc, not_true, if_false, if_neg] at h
        by_cases hl : u.leafIndex ≠ last
        · simp [hl] at h
        · push_neg at hl
          simp only [hl, ne_eq, not_true, if_false, if_neg] at h
          by_cases hr : rest' = []
          · subst hr
            refine ⟨?_, by simp [hl], by simp⟩
            intro v hv
            have hvu : v = u := by simpa using hv
            subst hvu
            rw [hl]; exact hc
          · rw [if_neg hr] at h
            obtain ⟨hall, hhead, hchain⟩ := ih (leafset.nextUnspent ls last) fin h
            refine ⟨?_, by simp [hl], ?_⟩
            · intro v hv
              rcases List.mem_cons.mp hv with hvu | hv'
              · subst hvu; rw [hl]; exact hc
              · exact hall _ hv'
            · refine List.Chain'.cons' hchain ?_
              intro y hy
              cases hy' : rest'.head? with
              | none => rw [hy'] at hy; cases hy
              | some v =>
                  rw [hy'] at hy
                  have : y = v := by cases hy; rfl
                  subst this
                  rw [hy'] at hhead
                  have : y.leafIndex = leafset.nextUnspent ls last := by
                    simpa using hhead
                  rw [this, hl]
      · simp [hc] at h

/-- **C2**: if `verifyMwebUtxos` returns `true` and the empty-MMR short
circuit does not apply, then every record of `m.Utxos` has its leaf index
set in the leafset, the first record's leaf index equals `m.StartIndex`,
each successive record's leaf index is `nextUnspent` of the previous one,
and the records are strictly ascending by leaf index. -/
theorem c2_verified_batch (hdr : MwebHeader) (ls : List Nat) (m : MsgMwebUtxos)
    (hv : verifyMwebUtxos hdr ls m = some true)
    (hne : ¬ (m.startIndex = 0 ∧ m.utxos = [] ∧ m.proofHashes = [] ∧
        hdr.outputRoot = zeroHash ∧ hdr.outputMMRSize = 0)) :
    (∀ u ∈ m.utxos, leafset.contains ls u.leafIndex = true) ∧
    m.utxos.head?.map Utxo.leafIndex = some m.startIndex ∧
    List.Chain' (fun a b => b.leafIndex = leafset.nextUnspent ls a.leafIndex) m.utxos ∧
    List.Chain' (fun a b => a.leafIndex < b.leafIndex) m.utxos := by
  unfold verifyMwebUtxos at hv
  rw [if_neg hne] at hv
  by_cases h2 : (m.utxos = [] ∨ hdr.outputMMRSize = 0)
  · rw [if_pos h2] at hv
    exact absurd hv (by simp)
  · rw [if_neg h2] at hv
    cases hw : walkLoop ls m.utxos m.startIndex with
    | none => rw [hw] at hv; exact absurd hv (by simp)
    | some o =>
        cases o with
        | none => rw [hw] at hv; exact absurd hv (by simp)
        | some last =>
            obtain ⟨hall, hhead, hchain⟩ := walkLoop_spec ls m.utxos m.startIndex last hw
            refine ⟨hall, hhead, hchain, ?_⟩
            refine hchain.imp ?_
            intro a b hab
            rw [hab]
            exact nextUnspent_gt ls a.leafIndex

/-- Witness for C2: a verified single-leaf batch. -/
theorem c2_verified_batch_witness :
    verifyMwebUtxos ⟨Hash.leafH 0 (Hash.raw (List.replicate 32 0xAA)), 1⟩ [0x80]
        ⟨zeroHash, 0, 0, [⟨0, Hash.raw (List.replicate 32 0xAA)⟩], []⟩ = some true ∧
      ((∀ u ∈ [(⟨0, Hash.raw (List.replicate 32 0xAA)⟩ : Utxo)],
          leafset.contains [0x80] u.leafIndex = true) ∧
        ([(⟨0, Hash.raw (List.replicate 32 0xAA)⟩ : Utxo)].head?.map Utxo.leafIndex =
          some 0) ∧
        List.Chain' (fun a b => b.leafIndex = leafset.nextUnspent [0x80] a.leafIndex)
          [(⟨0, Hash.raw (List.replicate 32 0xAA)⟩ : Utxo)] ∧
        List.Chain' (fun a b => a.leafIndex < b.leafIndex)
          [(⟨0, Hash.raw (List.replicate 32 0xAA)⟩ : Utxo)]) :=
  ⟨by decide,
    c2_verified_batch ⟨Hash.leafH 0 (Hash.raw (List.replicate 32 0xAA)), 1⟩ [0x80]
      ⟨zeroHash, 0, 0, [⟨0, Hash.raw (List.replicate 32 0xAA)⟩], []⟩
      (by decide) (by decide)⟩

/-! ### C3: `verifyMwebHeader`

The header verifier only compares values produced by external library
calls (`BlockHash()`, `bloom.VerifyMerkleBlock`, `TxHash()`,
`MwebHeader.Hash()`); we model those values as fields of the message
record (every combination of field values corresponds to a possible result
of the external calls) and 32-byte hashes as byte lists.  `blake3.Sum256`
of the leafset is an external function and is passed as a parameter.
The outer `Option` models Go panics. -/

/-- The data of `wire.MsgMwebHeader` (plus the results of the external
calls made on it) consulted by `verifyMwebHeader`. -/
structure MsgMwebHeaderData where
  merkleHeaderBlockHash : List Nat
  merkleHeaderMerkleRoot : List Nat
  merkleTransactions : Nat
  extractRoot : List Nat
  extractMatch : List (List Nat)
  extractIndex : List Nat
  hogexIsHogEx : Bool
  hogexTxHash : List Nat
  hogexTxOutScripts : List (List Nat)
  mwebHeaderHash : List Nat
  mwebHeaderLeafsetRoot : List Nat
  deriving DecidableEq, Repr

/-- `wire.MsgMwebLeafset`. -/
structure MsgMwebLeafsetData where
  leafsetBytes : List Nat
  deriving DecidableEq, Repr

/-- `verifyMwebHeader`.  `none` models a Go panic: the source indexes
`extractResult.Match[len(extractResult.Match)-1]`,
`extractResult.Index[len(extractResult.Index)-1]` and
`mwebHeader.Hogex.TxOut[0]` without bounds checks. -/
def verifyMwebHeader (blake3Sum256 : List Nat → List Nat)
    (mwebHeader : Option MsgMwebHeaderData) (mwebLeafset : Option MsgMwebLeafsetData)
    (lastHash : List Nat) : Option Bool :=
  match mwebHeader, mwebLeafset with
  | none, _ => some false
  | _, none => some false
  | some h, some l =>
      if h.merkleHeaderBlockHash ≠ lastHash then some false
      else if h.extractRoot ≠ h.merkleHeaderMerkleRoot then some false
      else if ¬ h.hogexIsHogEx then some false
      else
        match h.extractMatch.getLast? with
        | none => none
        | some finalTx =>
            if h.hogexTxHash ≠ finalTx then some false
            else
              match h.extractIndex.getLast? with
              | none => none
              | some finalTxPos =>
                  if finalTxPos ≠ (h.merkleTransactions + 2 ^ 32 - 1) % 2 ^ 32 then
                    some false
                  else
                    match h.hogexTxOutScripts.head? with
                    | none => none
                    | some pkScript =>
                        if pkScript ≠ 0x58 :: 0x20 :: h.mwebHeaderHash then some false
                        else if blake3Sum256 l.leafsetBytes ≠ h.mwebHeaderLeafsetRoot then
                          some false
                        else some true

/-- **C3** (code bug): `verifyMwebHeader` is *not* total.  When the
merkleblock extraction yields zero matched transactions (first input) the
source panics indexing `Match[len(Match)-1]`, and when the HogEx
transaction has no outputs (second input) it panics indexing `TxOut[0]`;
the claim (and spec) say every failing validation step yields `false`. -/
theorem c3_verifyMwebHeader_panics :
    verifyMwebHeader (fun _ => List.replicate 32 0)
        (some ⟨List.replicate 32 0, List.replicate 32 1, 1, List.replicate 32 1,
          [], [], true, List.replicate 32 2, [[0]], List.replicate 32 3,
          List.replicate 32 4⟩)
        (some ⟨[]⟩) (List.replicate 32 0) = none ∧
    verifyMwebHeader (fun _ => List.replicate 32 0)
        (some ⟨List.replicate 32 0, List.replicate 32 1, 1, List.replicate 32 1,
          [List.replicate 32 2], [0], true, List.replicate 32 2, [],
          List.replicate 32 3, List.replicate 32 4⟩)
        (some ⟨[]⟩) (List.replicate 32 0) = none := by
  constructor <;> rfl

/-! ### C5: the leafset differ (the diff section of `blockManager.getMwebUtxos`)

The differ compares the persisted and incoming bitmaps and produces
additive spans and removed leaves.  `addLeaf.count` is a Go `uint16`,
so the increment wraps modulo `2^16`; the per-query cap
(`wire.MaxMwebUtxosPerQuery`, an external constant) is a parameter. -/

/-- A `span` of added leaves (`struct { start uint64; count uint16 }`). -/
structure Span where
  start : Nat
  count : Nat
  deriving DecidableEq, Repr

/-- The loop state of the differ: the pending span `addLeaf` plus the
accumulated `addedLeaves` and `removedLeaves`. -/
structure DiffState where
  addStart : Nat
  addCount : Nat
  addedLeaves : List Span
  removedLeaves : List Nat
  deriving DecidableEq, Repr

/-- `addLeafSpan`: emit the pending span if non-empty and reset it
(`addLeaf = span{}`). -/
def addLeafSpan (st : DiffState) : DiffState :=
  if st.addCount ≠ 0 then
    { st with addedLeaves := st.addedLeaves ++ [⟨st.addStart, st.addCount⟩],
              addStart := 0, addCount := 0 }
  else st

/-- One iteration of the differ loop over bit index `i`. -/
def diffStep (old new : List Nat) (cap i : Nat) (st : DiffState) : DiffState :=
  if leafset.contains old i then
    let st1 := addLeafSpan st
    if ¬ leafset.contains new i then
      { st1 with removedLeaves := st1.removedLeaves ++ [i] }
    else st1
  else if leafset.contains new i then
    let st1 := if st.addCount = 0 then { st with addStart := i } else st
    let st2 := { st1 with addCount := (st1.addCount + 1) % 2 ^ 16 }
    if st2.addCount = cap then addLeafSpan st2 else st2
  else st

/-- The differ loop: `for index *= 8; index < oldNumLeaves || index <
newNumLeaves; index++`, as fuel = number of remaining iterations. -/
def diffLoop (old new : List Nat) (cap : Nat) : Nat → Nat → DiffState → DiffState
  | 0, _, st => st
  | fuel + 1, i, st => diffLoop old new cap fuel (i + 1) (diffStep old new cap i st)

/-- The `// Skip over common prefix` loop: length of the common byte
prefix of the two bitmaps. -/
def commonPrefixBytes : List Nat → List Nat → Nat
  | a :: as, b :: bs => if a = b then commonPrefixBytes as bs + 1 else 0
  | _, _ => 0

/-- The complete differ of `blockManager.getMwebUtxos` (lines 340–377):
skip the common byte prefix, scan the remaining indices, and flush the
trailing additive span. -/
def mwebDiff (old : List Nat) (oldNumLeaves : Nat) (new : List Nat)
    (newNumLeaves : Nat) (cap : Nat) : DiffState :=
  let start := 8 * commonPrefixBytes old new
  let stop := max oldNumLeaves newNumLeaves
  addLeafSpan (diffLoop old new cap (stop - start) start ⟨0, 0, [], []⟩)

/-- **C5** (amended: a pending additive span is closed and emitted exactly
when its count reaches the per-query cap or when an index set in the *old*
leafset is encountered — whether or not that index is also set in the new
leafset.  In particular an index set in both old and new *does* close the
current additive span, contrary to the claim as stated). -/
theorem c5_span_close (old new : List Nat) (cap i : Nat) (st : DiffState) :
    (diffStep old new cap i st).addedLeaves.length ≠ st.addedLeaves.length ↔
      ((leafset.contains old i = true ∧ st.addCount ≠ 0) ∨
        (leafset.contains old i = false ∧ leafset.contains new i = true ∧
          (st.addCount + 1) % 2 ^ 16 = cap ∧ cap ≠ 0)) := by
  by_cases ho : leafset.contains old i
  · by_cases hc : st.addCount = 0
    · by_cases hn : leafset.contains new i <;>
        simp [diffStep, addLeafSpan, ho, hn, hc]
    · by_cases hn : leafset.contains new i <;>
        simp [diffStep, addLeafSpan, ho, hn, hc]
  · by_cases hn : leafset.contains new i
    · by_cases heq : (st.addCount + 1) % 65536 = cap
      · by_cases hcap : cap = 0
        · subst hcap
          by_cases hc : st.addCount = 0
          · rw [hc] at heq; norm_num at heq
          · simp [diffStep, addLeafSpan, ho, hn, hc, heq]
        · by_cases hc : st.addCount = 0
          · rw [hc] at heq; norm_num at heq
            simp only [diffStep, addLeafSpan, ho, hn, hc, heq, hcap]
            rw [← heq]
            simp [hcap, ← heq]
          · simp [diffStep, addLeafSpan, ho, hn, hc, heq, hcap]
      · by_cases hc : st.addCount = 0
        · have heq1 : ¬ (1 = cap) := by rw [hc] at heq; omega
          simp [diffStep, addLeafSpan, ho, hn, hc, heq1]
        · simp [diffStep, addLeafSpan, ho, hn, hc, heq]
    · simp [diffStep, ho, hn]

/-- Counterexample to C5 as stated: diffing old bitmap `0x40` (only index
1 set) against new bitmap `0xE0` (indices 0, 1, 2 set) over 3 leaves
produces *no* removals and only 2 additions (far below any cap), yet two
separate additive spans: index 1, set in both bitmaps, closed the pending
span — so spans are not closed only by the cap or by removals. -/
theorem c5_counterexample :
    (mwebDiff [0x40] 3 [0xE0] 3 4096).removedLeaves = [] ∧
      (mwebDiff [0x40] 3 [0xE0] 3 4096).addedLeaves = [⟨0, 1⟩, ⟨2, 1⟩] ∧
      ¬ (mwebDiff [0x40] 3 [0xE0] 3 4096).addedLeaves.length ≤ 1 := by
  refine ⟨?_, ?_, ?_⟩ <;> decide

/-! ### C6: `mwebUtxosQuery.handleResponse` -/

/-- `wire.MsgGetMwebUtxos`. -/
structure MsgGetMwebUtxos where
  blockHash : Hash
  startIndex : Nat
  numRequested : Nat
  outputFormat : Nat
  deriving DecidableEq, Repr

/-- A wire message as seen by the response handler: either one of the two
relevant kinds, or anything else (the type switches `resp.(*wire.
MsgMwebUtxos)` and `req.(*wire.MsgGetMwebUtxos)`). -/
inductive WireMsg : Type
  | utxosMsg (m : MsgMwebUtxos)
  | getUtxosMsg (g : MsgGetMwebUtxos)
  | otherMsg
  deriving DecidableEq, Repr

/-- `query.Progress`. -/
structure Progress where
  finished : Bool
  progressed : Bool
  deriving DecidableEq, Repr

/-- The observable outcome of `handleResponse`: the returned progress,
whether `BanPeer` was invoked, and the message delivered on `utxosChan`
(if any). -/
structure HandleResult where
  progress : Progress
  banned : Bool
  delivered : Option MsgMwebUtxos
  deriving DecidableEq, Repr

/-- The request/response field comparison of `handleResponse`; the Go code
compares `q.NumRequested` (a `uint16`) against `uint16(len(r.Utxos))`. -/
def respMatches (q : MsgGetMwebUtxos) (r : MsgMwebUtxos) : Prop :=
  q.blockHash = r.blockHash ∧ q.startIndex = r.startIndex ∧
    q.outputFormat = r.outputFormat ∧ q.numRequested = r.utxos.length % 2 ^ 16

instance (q : MsgGetMwebUtxos) (r : MsgMwebUtxos) : Decidable (respMatches q r) := by
  unfold respMatches
  infer_instance

/-- `mwebUtxosQuery.handleResponse`.  The `select` between the channel
send and the shutdown signal is modelled by `quitSignalled` (true when the
quit case wins the race).  The outer `Option` propagates a panic of
`verifyMwebUtxos` (which never happens, by `c10_verifyMwebUtxos_total`'s
underlying lemmas). -/
def handleResponse (hdr : MwebHeader) (ls : List Nat) (req resp : WireMsg)
    (quitSignalled : Bool) : Option HandleResult :=
  match resp with
  | WireMsg.utxosMsg r =>
      match req with
      | WireMsg.getUtxosMsg q =>
          if ¬ respMatches q r then
            some ⟨⟨false, false⟩, false, none⟩
          else
            match verifyMwebUtxos hdr ls r with
            | none => none
            | some false => some ⟨⟨false, false⟩, true, none⟩
            | some true =>
                if quitSignalled then some ⟨⟨false, false⟩, false, none⟩
                else some ⟨⟨true, true⟩, false, some r⟩
      | _ => some ⟨⟨false, false⟩, false, none⟩
  | _ => some ⟨⟨false, false⟩, false, none⟩

/-- **C6**: `handleResponse` bans exactly when a utxos response paired
with a matching getmwebutxos request fails verification; wrong kinds or a
field mismatch yield no-progress with no ban; a verified response that is
delivered (shutdown did not win the race) yields finished progress. -/
theorem c6_handleResponse (hdr : MwebHeader) (ls : List Nat) (req resp : WireMsg)
    (quitSignalled : Bool) (res : HandleResult)
    (h : handleResponse hdr ls req resp quitSignalled = some res) :
    (res.banned = true ↔
      ∃ r q, resp = WireMsg.utxosMsg r ∧ req = WireMsg.getUtxosMsg q ∧
        respMatches q r ∧ verifyMwebUtxos hdr ls r = some false) ∧
    (∀ r q, resp = WireMsg.utxosMsg r → req = WireMsg.getUtxosMsg q →
      ¬ respMatches q r → res = ⟨⟨false, false⟩, false, none⟩) ∧
    ((∀ r, resp ≠ WireMsg.utxosMsg r) → res = ⟨⟨false, false⟩, false, none⟩) ∧
    (∀ r, resp = WireMsg.utxosMsg r → (∀ q, req ≠ WireMsg.getUtxosMsg q) →
      res = ⟨⟨false, false⟩, false, none⟩) ∧
    (∀ r q, resp = WireMsg.utxosMsg r → req = WireMsg.getUtxosMsg q →
      respMatches q r → verifyMwebUtxos hdr ls r = some true → quitSignalled = false →
      res = ⟨⟨true, true⟩, false, some r⟩) := by
  cases resp with
  | otherMsg =>
      simp only [handleResponse, Option.some_inj] at h
      subst h
      refine ⟨by simp, by simp, fun _ => rfl, by simp, by simp⟩
  | getUtxosMsg g =>
      simp only [handleResponse, Option.some_inj] at h
      subst h
      refine ⟨by simp, by simp, fun _ => rfl, by simp, by simp⟩
  | utxosMsg r =>
      cases req with
      | otherMsg =>
          simp only [handleResponse, Option.some_inj] at h
          subst h
          refine ⟨by simp, by simp, ?_, fun _ _ _ => rfl, by simp⟩
          intro hne
          exact absurd rfl (hne r)
      | utxosMsg m =>
          simp only [handleResponse, Option.some_inj] at h
          subst h
          refine ⟨by simp, by simp, ?_, fun _ _ _ => rfl, by simp⟩
          intro hne
          exact absurd rfl (hne r)
      | getUtxosMsg q =>
          simp only [handleResponse] at h
          by_cases hm : respMatches q r
          · rw [if_neg (not_not_intro hm)] at h
            cases hv : verifyMwebUtxos hdr ls r with
            | none => rw [hv] at h; cases h
            | some b =>
                rw [hv] at h
                cases b with
                | false =>
                    simp only [Option.some_inj] at h
                    subst h
                    refine ⟨?_, ?_, by simp, by simp, ?_⟩
                    · simp only [true_iff]
                      exact ⟨r, q, rfl, rfl, hm, hv⟩
                    · intro r' q' hr' hq' hm'
                      cases hr'; cases hq'
                      exact absurd hm hm'
                    · intro r' q' hr' hq' _ hv' _
                      cases hr'
                      rw [hv] at hv'
                      cases hv'
                | true =>
                    cases quitSignalled with
                    | true =>
                        rw [if_pos (show (true : Bool) = true from rfl)] at h
                        simp only [Option.some_inj] at h
                        subst h
                        refine ⟨?_, ?_, by simp, by simp, ?_⟩
                        · simp only [Bool.false_eq_true, false_iff]
                          rintro ⟨r', q', hr', hq', _, hv'⟩
                          cases hr'; cases hq'
                          rw [hv] at hv'
                          cases hv'
                        · intro r' q' hr' hq' hm'
                          cases hr'; cases hq'
                          exact absurd hm hm'
                        · intro r' q' hr' hq' _ _ hqs
                          exact Bool.noConfusion hqs
                    | false =>
                        rw [if_neg (by simp)] at h
                        simp only [Option.some_inj] at h
                        subst h
                        refine ⟨?_, ?_, by simp, by simp, ?_⟩
                        · simp only [Bool.false_eq_true, false_iff]
                          rintro ⟨r', q', hr', hq', _, hv'⟩
                          cases hr'; cases hq'
                          rw [hv] at hv'
                          cases hv'
                        · intro r' q' hr' hq' hm'
                          cases hr'; cases hq'
                          exact absurd hm hm'
                        · intro r' q' hr' hq' _ _ _
                          cases hr'; cases hq'
                          rfl
          · rw [if_pos hm] at h
            simp only [Option.some_inj] at h
            subst h
            refine ⟨?_, ?_, by simp, by simp, ?_⟩
            · simp only [Bool.false_eq_true, false_iff]
              rintro ⟨r', q', hr', hq', hm', _⟩
              cases hr'; cases hq'
              exact hm hm'
            · intro r' q' hr' hq' _
              rfl
            · intro r' q' hr' hq' hm' _ _
              cases hr'; cases hq'
              exact absurd hm' hm

/-- Witness for C6: a response of the wrong kind yields no-progress and no
ban. -/
theorem c6_handleResponse_witness :
    handleResponse ⟨zeroHash, 0⟩ [] WireMsg.otherMsg WireMsg.otherMsg false =
        some ⟨⟨false, false⟩, false, none⟩ ∧
      ((⟨⟨false, false⟩, false, none⟩ : HandleResult).banned = true ↔
        ∃ r q, WireMsg.otherMsg = WireMsg.utxosMsg r ∧
          WireMsg.otherMsg = WireMsg.getUtxosMsg q ∧
          respMatches q r ∧ verifyMwebUtxos ⟨zeroHash, 0⟩ [] r = some false) :=
  ⟨by decide,
    (c6_handleResponse ⟨zeroHash, 0⟩ [] WireMsg.otherMsg WireMsg.otherMsg false
      ⟨⟨false, false⟩, false, none⟩ (by decide)).1⟩

/-! ### C7: the coordinator's reassembly loop

The receive loop of `blockManager.getMwebUtxos` (lines 424-515): a pending
index `i` over the planned spans (`addedLeaves`), a cache map
`queryResponses` keyed by `StartIndex`, and the cached-message drain that
persists responses and invokes the callbacks in span order.  The Go map is
modelled as an association list with lookup/insert/erase. -/

/-- Inhabited dummy message (used only as a `getD` default). -/
def noMsg : MsgMwebUtxos := ⟨zeroHash, 0, 0, [], []⟩

def alLookup (k : Nat) : List (Nat × MsgMwebUtxos) → Option MsgMwebUtxos
  | [] => none
  | (k', v) :: rest => if k' = k then some v else alLookup k rest

def alErase (k : Nat) (l : List (Nat × MsgMwebUtxos)) : List (Nat × MsgMwebUtxos) :=
  l.filter (fun p => p.1 != k)

def alInsert (k : Nat) (v : MsgMwebUtxos) (l : List (Nat × MsgMwebUtxos)) :
    List (Nat × MsgMwebUtxos) :=
  (k, v) :: alErase k l

/-- The coordinator's reassembly state: the pending span index `i`, the
`queryResponses` cache, and the sequence of committed responses (each
commit persists the utxos and invokes the subscriber callbacks, in this
order). -/
structure CoordState where
  idx : Nat
  cache : List (Nat × MsgMwebUtxos)
  commits : List MsgMwebUtxos
  deriving DecidableEq, Repr

/-- The inner drain loop (`for i < len(addedLeaves) { ... if !ok break;
delete; write; i++ }`), fuel-bounded by the number of remaining spans. -/
def drainAux (spans : List Span) : Nat → CoordState → CoordState
  | 0, st => st
  | fuel + 1, st =>
      if st.idx < spans.length then
        match alLookup ((spans.getD st.idx ⟨0, 0⟩).start) st.cache with
        | none => st
        | some r =>
            drainAux spans fuel
              ⟨st.idx + 1, alErase ((spans.getD st.idx ⟨0, 0⟩).start) st.cache,
                st.commits ++ [r]⟩
      else st

/-- Processing one arrival `r` from the utxos channel: compute
`startIndex = r.Utxos[0].LeafIndex` and `lastIndex` (a panic — `none` — if
`r.Utxos` is empty, which cannot happen for verified responses), discard
if `lastIndex < curIndex`, otherwise stash in the cache and drain.  When
the pending index has passed the last span the loop has exited and the
arrival is never read. -/
def coordStep (spans : List Span) (st : CoordState) (r : MsgMwebUtxos) :
    Option CoordState :=
  if st.idx < spans.length then
    match r.utxos.head?, r.utxos.getLast? with
    | some u0, some uL =>
        if uL.leafIndex < (spans.getD st.idx ⟨0, 0⟩).start then some st
        else
          some (drainAux spans (spans.length - st.idx)
            { st with cache := alInsert u0.leafIndex r st.cache })
    | _, _ => none
  else some st

/-- The receive loop over a whole arrival sequence. -/
def coordRun (spans : List Span) : List MsgMwebUtxos → CoordState → Option CoordState
  | [], st => some st
  | r :: rs, st =>
      match coordStep spans st r with
      | none => none
      | some st' => coordRun spans rs st'

/-- Leaf index of the first utxo of the `j`-th planned response. -/
def respStart (resps : List MsgMwebUtxos) (j : Nat) : Nat :=
  (((resps.getD j noMsg).utxos.head?).map Utxo.leafIndex).getD 0

/-- Leaf index of the last utxo of the `j`-th planned response. -/
def respLast (resps : List MsgMwebUtxos) (j : Nat) : Nat :=
  (((resps.getD j noMsg).utxos.getLast?).map Utxo.leafIndex).getD 0

/-- Well-formedness of the planned responses: one response per span, each
non-empty, starting exactly at its span's start, covering a range that
ends before the next span starts.  (This is what the coordinator's
requests guarantee for verified responses.) -/
def PlannedResponses (spans : List Span) (resps : List MsgMwebUtxos) : Prop :=
  resps.length = spans.length ∧
  ∀ j, j < spans.length →
    ((resps.getD j noMsg).utxos ≠ [] ∧
      respStart resps j = (spans.getD j ⟨0, 0⟩).start ∧
      (spans.getD j ⟨0, 0⟩).start ≤ respLast resps j ∧
      (j + 1 < spans.length → respLast resps j < (spans.getD (j + 1) ⟨0, 0⟩).start))

instance (spans : List Span) (resps : List MsgMwebUtxos) :
    Decidable (PlannedResponses spans resps) := by
  unfold PlannedResponses
  infer_instance

/-- The loop invariant of the reassembly loop.  `A j` holds when a
response for span `j` has already arrived. -/
def CoordInv (spans : List Span) (resps : List MsgMwebUtxos) (A : Nat → Prop)
    (st : CoordState) : Prop :=
  st.idx ≤ spans.length ∧
  st.commits = resps.take st.idx ∧
  (∀ k v, (k, v) ∈ st.cache → ∃ j, st.idx ≤ j ∧ j < spans.length ∧
      k = (spans.getD j ⟨0, 0⟩).start ∧ v = resps.getD j noMsg) ∧
  (∀ j, st.idx ≤ j → j < spans.length →
      (alLookup ((spans.getD j ⟨0, 0⟩).start) st.cache = some (resps.getD j noMsg) ↔ A j)) ∧
  (st.idx < spans.length → alLookup ((spans.getD st.idx ⟨0, 0⟩).start) st.cache = none)

theorem alLookup_mem (k : Nat) (v : MsgMwebUtxos) :
    ∀ l, alLookup k l = some v → (k, v) ∈ l := by
  intro l
  induction l with
  | nil => intro h; cases h
  | cons p rest ih =>
      obtain ⟨k', v'⟩ := p
      intro h
      rw [alLookup] at h
      by_cases hk : k' = k
      · rw [if_pos hk] at h
        subst hk
        cases h
        exact List.mem_cons_self _ _
      · rw [if_neg hk] at h
        exact List.mem_cons_of_mem _ (ih h)

theorem mem_alErase (k : Nat) (p : Nat × MsgMwebUtxos) (l : List (Nat × MsgMwebUtxos)) :
    p ∈ alErase k l → p ∈ l ∧ p.1 ≠ k := by
  intro h
  unfold alErase at h
  have := List.of_mem_filter h
  refine ⟨List.mem_of_mem_filter h, ?_⟩
  simpa using this

theorem alLookup_erase_ne (k k' : Nat) (hne : k ≠ k') :
    ∀ l, alLookup k (alErase k' l) = alLookup k l := by
  intro l
  induction l with
  | nil => rfl
  | cons p rest ih =>
      obtain ⟨k0, v0⟩ := p
      by_cases h0 : k0 = k'
      · subst h0
        have : alErase k0 ((k0, v0) :: rest) = alErase k0 rest := by
          simp [alErase]
        rw [this, ih, alLookup, if_neg (fun h => hne h.symm)]
      · have : alErase k' ((k0, v0) :: rest) = (k0, v0) :: alErase k' rest := by
          simp [alErase, h0]
        rw [this, alLookup, alLookup]
        by_cases hk : k0 = k
        · rw [if_pos hk, if_pos hk]
        · rw [if_neg hk, if_neg hk, ih]

theorem alLookup_insert_self (k : Nat) (v : MsgMwebUtxos) (l : List (Nat × MsgMwebUtxos)) :
    alLookup k (alInsert k v l) = some v := by
  simp [alInsert, alLookup]

theorem alLookup_insert_ne (k k' : Nat) (v : MsgMwebUtxos) (hne : k ≠ k')
    (l : List (Nat × MsgMwebUtxos)) :
    alLookup k (alInsert k' v l) = alLookup k l := by
  rw [alInsert, alLookup, if_neg (fun h => hne h.symm)]
  exact alLookup_erase_ne k k' hne l

end Neutrino
